import Mathlib

/-!
Shallow embedding of `src/buildtest/executors/setup.py` (class `BuildExecutor`):
the orchestrator that holds a registry of named executor backends, submits
builders through a worker pool (`run`), and polls pending batch jobs until
none remain (`poll`).

Modelling conventions:
- Python `list` operations are `List` operations; `list.remove` is
  `removeFirst` (first occurrence, `none` models the `ValueError` raised when
  the element is absent).
- Python `set` is `Finset` (`set.add` is `insert` / union).
- Backend behaviour (`LocalExecutor.run`, batch `dispatch`, batch `poll`) is
  external to this file's source and is abstracted as environment functions;
  the flags `is_complete()` / `is_failure()` observed right after a backend
  `poll` are a `PollView`.
- Builders are compared by value; a builder's unique identity is its `name`
  field, mirroring the data model's "unique identity" and Python's object
  identity for the aliased list/set entries.
-/

namespace Buildtest

/-- A builder (`BuilderBase`): a unit of work with a unique identity, a target
executor name, and an optional attached job handle (`builder.job`), present
iff an asynchronous dispatch succeeded. -/
structure Builder where
  name : Nat
  executor : String
  job : Option Nat
deriving DecidableEq

/-- `BuilderBase.is_batch_job`: true iff attribute `builder.job` is a `Job`
instance (line 274). -/
def Builder.is_batch_job (b : Builder) : Bool := b.job.isSome

/-- Executor settings as read by `setup` (lines 189-202): the `module` field
and the raw `before_script` text, each possibly absent. -/
structure Settings where
  module : Option String
  before_script : Option String
deriving DecidableEq

/-- An executor backend object. The orchestrator branches only on
`executor.type == "local"` (line 237) and reads `_settings` in `setup`. -/
structure Executor where
  type : String
  settings : Settings
deriving DecidableEq

/-- The registry `self.executors`: a mapping executor name -> backend object
(Python dict; keys are unique). -/
abbrev Registry := List (String × Executor)

/-- `self.executors.get(name)` (method `BuildExecutor.get`, lines 147-149):
dict lookup returning `None` when the name is absent. -/
def getExec : Registry → String → Option Executor
  | [], _ => none
  | (k, e) :: rest, n => if k = n then some e else getExec rest n

/-- Exception classes of `buildtest.exceptions` relevant here. -/
inductive ExcKind where
  | executorError
  | configurationError
deriving DecidableEq

/-- `BuildExecutor._choose_executor` (lines 162-178): resolve
`builder.executor` with `self.get`; when the result is not a `BaseExecutor`
(i.e. the lookup returned `None`) raise `ExecutorError`. -/
def chooseExecutor (reg : Registry) (b : Builder) : Except ExcKind Executor :=
  match getExec reg b.executor with
  | some e => .ok e
  | none => .error .executorError

/-- The orchestrator's tracking state: `self._pending` (a list),
`self._completed` and `self._cancelled` (sets), `self._validbuilders`
(a list). -/
structure OrchState where
  pending : List Builder
  completed : Finset Builder
  cancelled : Finset Builder
  validbuilders : List Builder
deriving DecidableEq

/-- Python `list.remove(a)`: delete the first occurrence of `a`; `none`
models the `ValueError` raised when `a` is absent. -/
def removeFirst [DecidableEq α] (l : List α) (a : α) : Option (List α) :=
  if a ∈ l then some (l.erase a) else none

/-- Run `list.remove` once for every element of `s`, left to right, as the
`for builder in completed/cancelled` loops do (lines 309-322). -/
def removeAll [DecidableEq α] : List α → List α → Option (List α)
  | l, [] => some l
  | l, a :: s =>
    match removeFirst l a with
    | none => none
    | some l' => removeAll l' s

/-- What the orchestrator observes of a builder right after invoking its
backend's `poll`: the values of `builder.is_complete()` and
`builder.is_failure()` (lines 303-306). -/
structure PollView where
  complete : Bool
  failure : Bool

/-- One iteration of the `while self._pending` loop of `BuildExecutor.poll`
(lines 284-324): every pending builder's executor is fetched with `self.get`
(an unregistered name makes `executor.poll` crash: `none`), the backend polls
it, and the builder is appended to the local `completed` list when
`is_complete()` holds, else to `cancelled` when `is_failure()` holds.
Afterwards completed builders are removed from pending and added to
`self._completed`, then cancelled builders are removed from pending, added to
`self._cancelled`, and removed from `self._validbuilders`. -/
def pollStep (reg : Registry) (o : Builder → PollView) (st : OrchState) :
    Option OrchState :=
  if st.pending.all (fun b => (getExec reg b.executor).isSome) then
    let comp := st.pending.filter (fun b => (o b).complete)
    let canc := st.pending.filter (fun b => !(o b).complete && (o b).failure)
    (removeAll st.pending comp).bind fun p1 =>
    (removeAll p1 canc).bind fun p2 =>
    (removeAll st.validbuilders canc).bind fun v =>
    some { pending := p2
           completed := st.completed ∪ comp.toFinset
           cancelled := st.cancelled ∪ canc.toFinset
           validbuilders := v }
  else none

/-- `BuildExecutor.poll`: iterate `pollStep` while pending is non-empty.
`fuel` bounds the number of iterations modelled (the Python loop need not
terminate when a job never finishes); `o i` gives the backend poll outcomes
observed during iteration `i`. -/
def pollLoop (reg : Registry) (o : Nat → Builder → PollView) :
    Nat → Nat → OrchState → Option OrchState
  | 0, _, st => some st
  | fuel + 1, i, st =>
    if st.pending.isEmpty then some st
    else
      match pollStep reg (o i) st with
      | none => none
      | some st' => pollLoop reg o fuel (i + 1) st'

/-- The first loop of `BuildExecutor.run` (lines 216-219): resolve every
builder's executor through `_choose_executor`, aborting at the first
failure — this happens before the worker pool is created (line 227), so a
resolution failure means nothing was submitted. -/
def resolveAll (reg : Registry) : List Builder → Except ExcKind Unit
  | [] => .ok ()
  | b :: bs =>
    match chooseExecutor reg b with
    | .error e => .error e
    | .ok _ => resolveAll reg bs

/-- The submission loop of `run` (lines 231-244) combined with result
collection (lines 246-264): each builder goes to the pool as `executor.run`
when `executor.type == "local"` and as `executor.dispatch` otherwise; a
task's result is the (mutated) builder, or `None` for a failed dispatch.
`eR` models the backends' synchronous `run` (it always yields a builder) and
`eD` the asynchronous `dispatch`. Collection order is modelled as submission
order; the spec guarantees no ordering, and the claims below are
order-insensitive membership facts. -/
def submitAll (reg : Registry) (eR : Builder → Builder)
    (eD : Builder → Option Builder) :
    List Builder → Except ExcKind (List (Option Builder))
  | [] => .ok []
  | b :: bs =>
    match chooseExecutor reg b with
    | .error e => .error e
    | .ok ex =>
      match submitAll reg eR eD bs with
      | .error e => .error e
      | .ok rest => .ok ((if ex.type = "local" then some (eR b) else eD b) :: rest)

/-- `BuildExecutor.run` (lines 205-275) from a freshly initialised
orchestrator: resolve all builders, submit and collect; only results that
are `BuilderBase` instances enter `self._validbuilders` (line 259); finally
every valid builder with `is_batch_job()` is appended to `self._pending`
(lines 272-275). -/
def run (reg : Registry) (eR : Builder → Builder) (eD : Builder → Option Builder)
    (builders : List Builder) : Except ExcKind OrchState :=
  match resolveAll reg builders with
  | .error e => .error e
  | .ok _ =>
    match submitAll reg eR eD builders with
    | .error e => .error e
    | .ok results =>
      let valid := results.filterMap id
      .ok { pending := valid.filter (fun b => b.is_batch_job)
            completed := ∅
            cancelled := ∅
            validbuilders := valid }

/-- The filesystem as `setup` sees it: which directories exist and what each
file contains. -/
structure FS where
  dirs : String → Bool
  files : String → Option String

/-- Modelled from the spec: `buildtest.utils.file.create_dir` (not under
`src/`) — "directory creation is a no-op if present". -/
def create_dir (fs : FS) (d : String) : FS :=
  { fs with dirs := fun p => if p = d then true else fs.dirs p }

/-- Modelled from the spec: `buildtest.utils.file.write_file` (not under
`src/`) — "file write overwrites deterministically". -/
def write_file (fs : FS) (p : String) (c : String) : FS :=
  { fs with files := fun q => if q = p then some c else fs.files q }

/-- `os.path.join(BUILDTEST_EXECUTOR_DIR, executor_name)` (line 188), with the
root directory left abstract. -/
def dirPath (root name : String) : String := root ++ "/" ++ name

/-- `os.path.join(BUILDTEST_EXECUTOR_DIR, executor_name, "before_script.sh")`
(lines 192-194). -/
def scriptPath (root name : String) : String :=
  root ++ "/" ++ name ++ "/before_script.sh"

/-- The script content computed by `setup` (lines 195-202): the shebang line,
then — when `get_module_commands` yields any — the module commands joined by
newlines plus a trailing newline, then `settings.get("before_script") or ""`.
`gmc` stands for `get_module_commands` (not under `src/`; modelled from the
spec as an arbitrary derivation of commands from the `module` setting). -/
def scriptContent (gmc : Option String → List String) (s : Settings) : String :=
  let module_cmds := gmc s.module
  let base := "#!/bin/bash" ++ "\n"
  let withMods :=
    if module_cmds.isEmpty then base
    else base ++ String.intercalate "\n" module_cmds ++ "\n"
  withMods ++ (s.before_script.getD "")

/-- `BuildExecutor.setup` (lines 180-203): for every registered executor
create `var/executors/<name>` and write the generated `before_script.sh`
there. The loop over `self.names()` with `self.executors[name]` is the loop
over the registry's (unique-keyed) entries. -/
def setup (gmc : Option String → List String) (root : String) :
    Registry → FS → FS
  | [], fs => fs
  | (n, e) :: rest, fs =>
    setup gmc root rest
      (write_file (create_dir fs (dirPath root n)) (scriptPath root n)
        (scriptContent gmc e.settings))

/-- Python truthiness combinator on an optional natural: `x or y` where both
`None` and `0` are falsy. -/
def pyOrNat (x : Option Nat) (y : Nat) : Nat :=
  match x with
  | some k => if k = 0 then y else k
  | none => y

/-- Lines 223-225 of `run`:
`num_workers = self.configuration.target_config.get("numprocs") or os.cpu_count()`
followed by `num_workers = min(num_workers, os.cpu_count())`. -/
def numWorkers (numprocs : Option Nat) (cpuCount : Nat) : Nat :=
  min (pyOrNat numprocs cpuCount) cpuCount

/-- Lines 60-69 of `__init__`:
`self.pollinterval = pollinterval or deep_get(config, "executors", "defaults", "pollinterval") or default_interval`
with `default_interval = 30`. -/
def pollintervalOf (arg : Option Nat) (cfg : Option Nat) : Nat :=
  pyOrNat arg (pyOrNat cfg 30)

/-- The invariant of claim C1: a builder belongs to at most one of the
tracking sets `_pending`, `_completed`, `_cancelled`. -/
def AtMostOne (st : OrchState) : Prop :=
  (∀ b ∈ st.pending, b ∉ st.completed) ∧
  (∀ b ∈ st.pending, b ∉ st.cancelled) ∧
  ∀ b ∈ st.completed, b ∉ st.cancelled

instance (st : OrchState) : Decidable (AtMostOne st) := by
  unfold AtMostOne; infer_instance

/-- The invariant behind claim C7: every occurrence of a builder in
`_pending` is backed by an occurrence in `_validbuilders`, so the
`_validbuilders.remove` done for a cancelled builder always finds it. -/
def PendingBacked (st : OrchState) : Prop :=
  ∀ b ∈ st.pending, st.pending.count b ≤ st.validbuilders.count b

instance (st : OrchState) : Decidable (PendingBacked st) := by
  unfold PendingBacked; infer_instance

/-- No builder carrying identity `n` occurs anywhere in the orchestrator's
tracking structures. -/
def Untracked (st : OrchState) (n : Nat) : Prop :=
  (∀ c ∈ st.pending, c.name ≠ n) ∧
  (∀ c ∈ st.completed, c.name ≠ n) ∧
  (∀ c ∈ st.cancelled, c.name ≠ n) ∧
  ∀ c ∈ st.validbuilders, c.name ≠ n

instance (st : OrchState) (n : Nat) : Decidable (Untracked st n) := by
  unfold Untracked; infer_instance

/-- The worker-pool width exactly as the spec's sentence states it:
`min(configured_or_default, host_execution_units)`, defaulting to the host's
execution-unit count when unconfigured. Stated from the spec's words, to be
compared with `numWorkers`, which is translated from the code. -/
def specWorkerWidth (configured : Option Nat) (hostUnits : Nat) : Nat :=
  min (configured.getD hostUnits) hostUnits

/-- An empty filesystem, used to instantiate theorems at concrete inputs. -/
def emptyFS : FS :=
  { dirs := fun _ => false, files := fun _ => none }

/-- A small concrete registry used to instantiate the theorems below. -/
def sampleReg : Registry :=
  [("gen", ⟨"local", ⟨none, none⟩⟩), ("s1", ⟨"slurm", ⟨none, none⟩⟩)]

/-- A concrete `LocalExecutor.run` environment: the builder comes back as is. -/
def sampleRun : Builder → Builder := fun b => b

/-- A concrete `dispatch` environment: builder 0 gets job id 5 attached,
every other dispatch fails to produce a job. -/
def sampleDispatch : Builder → Option Builder :=
  fun b => if b.name = 0 then some ⟨0, b.executor, some 5⟩ else none

/-- A concrete batch builder before dispatch. -/
def sampleBatch : Builder := ⟨0, "s1", none⟩

/-- `sampleBatch` as returned by `sampleDispatch`, with its job attached. -/
def sampleJob : Builder := ⟨0, "s1", some 5⟩

/-- The orchestrator state `run` produces on `[sampleBatch]`. -/
def st0W : OrchState :=
  { pending := [sampleJob], completed := ∅, cancelled := ∅,
    validbuilders := [sampleJob] }

/-- The state after one poll iteration of `st0W` that completes the job. -/
def stCW : OrchState :=
  { pending := [], completed := {sampleJob}, cancelled := ∅,
    validbuilders := [sampleJob] }

/-- The state after one poll iteration of `st0W` that cancels the job. -/
def stXW : OrchState :=
  { pending := [], completed := ∅, cancelled := {sampleJob},
    validbuilders := [] }

/-- The empty orchestrator state, produced by `run` when every dispatch
fails. -/
def stEW : OrchState :=
  { pending := [], completed := ∅, cancelled := ∅, validbuilders := [] }

/-! ### Lemmas about `removeFirst` / `removeAll` (Python `list.remove`) -/

theorem removeFirst_eq_some {α : Type} [DecidableEq α] {l l' : List α} {a : α}
    (h : removeFirst l a = some l') : a ∈ l ∧ l' = l.erase a := by
  unfold removeFirst at h
  split at h
  · exact ⟨by assumption, (Option.some.inj h).symm⟩
  · exact absurd h (by simp)

theorem removeFirst_isSome {α : Type} [DecidableEq α] {l : List α} {a : α}
    (h : a ∈ l) : removeFirst l a = some (l.erase a) := by
  simp [removeFirst, h]

theorem removeAll_sublist {α : Type} [DecidableEq α] {s : List α} :
    ∀ {l l' : List α}, removeAll l s = some l' → l'.Sublist l := by
  induction s with
  | nil =>
    intro l l' h
    simp only [removeAll, Option.some.injEq] at h
    exact h ▸ List.Sublist.refl l
  | cons a s ih =>
    intro l l' h
    simp only [removeAll] at h
    cases hrf : removeFirst l a with
    | none => rw [hrf] at h; cases h
    | some l1 =>
      rw [hrf] at h
      obtain ⟨-, hl1⟩ := removeFirst_eq_some hrf
      exact (ih h).trans (hl1 ▸ List.erase_sublist a l)

theorem removeAll_count {α : Type} [DecidableEq α] {s : List α} :
    ∀ {l l' : List α}, removeAll l s = some l' →
      ∀ b, l'.count b + s.count b = l.count b := by
  induction s with
  | nil =>
    intro l l' h b
    simp only [removeAll, Option.some.injEq] at h
    simp [h]
  | cons a s ih =>
    intro l l' h b
    simp only [removeAll] at h
    cases hrf : removeFirst l a with
    | none => rw [hrf] at h; cases h
    | some l1 =>
      rw [hrf] at h
      obtain ⟨ha, hl1⟩ := removeFirst_eq_some hrf
      have hcount := ih h b
      subst hl1
      by_cases hba : b = a
      · subst hba
        have hpos : 0 < l.count b := List.count_pos_iff.mpr ha
        rw [List.count_erase_self] at hcount
        rw [List.count_cons_self]
        omega
      · rw [List.count_erase_of_ne hba] at hcount
        rw [List.count_cons_of_ne hba]
        omega

theorem removeAll_isSome {α : Type} [DecidableEq α] {s : List α} :
    ∀ {l : List α}, (∀ b, s.count b ≤ l.count b) → (removeAll l s).isSome := by
  induction s with
  | nil => intro l _; simp [removeAll]
  | cons a s ih =>
    intro l hc
    have ha : a ∈ l := by
      have h := hc a
      rw [List.count_cons_self] at h
      exact List.count_pos_iff.mp (by omega)
    simp only [removeAll, removeFirst_isSome ha]
    apply ih
    intro b
    by_cases hba : b = a
    · subst hba
      have h := hc b
      rw [List.count_cons_self] at h
      rw [List.count_erase_self]
      omega
    · have h := hc b
      rw [List.count_cons_of_ne hba] at h
      rw [List.count_erase_of_ne hba]
      omega

theorem count_filter_eq {α : Type} [DecidableEq α] (p : α → Bool) (l : List α)
    (b : α) : (l.filter p).count b = if p b then l.count b else 0 := by
  by_cases h : p b
  · simp only [h, if_true]
    exact List.count_filter h
  · simp only [h, if_false]
    exact List.count_eq_zero.mpr fun hb => h (List.mem_filter.mp hb).2

/-! ### Structural lemmas about one poll iteration -/

theorem pollStep_def (reg : Registry) (o : Builder → PollView) (st : OrchState) :
    pollStep reg o st =
      if st.pending.all (fun b => (getExec reg b.executor).isSome) then
        (removeAll st.pending (st.pending.filter fun b => (o b).complete)).bind
          fun p1 =>
        (removeAll p1
            (st.pending.filter fun b => !(o b).complete && (o b).failure)).bind
          fun p2 =>
        (removeAll st.validbuilders
            (st.pending.filter fun b => !(o b).complete && (o b).failure)).bind
          fun v =>
        some { pending := p2
               completed := st.completed ∪
                 (st.pending.filter fun b => (o b).complete).toFinset
               cancelled := st.cancelled ∪
                 (st.pending.filter fun b =>
                   !(o b).complete && (o b).failure).toFinset
               validbuilders := v }
      else none := rfl

theorem pollStep_eq_some {reg : Registry} {o : Builder → PollView}
    {st st' : OrchState} (h : pollStep reg o st = some st') :
    (∀ b ∈ st.pending, (getExec reg b.executor).isSome) ∧
    ∃ p1,
      removeAll st.pending (st.pending.filter fun b => (o b).complete) =
        some p1 ∧
      removeAll p1 (st.pending.filter fun b => !(o b).complete && (o b).failure) =
        some st'.pending ∧
      removeAll st.validbuilders
        (st.pending.filter fun b => !(o b).complete && (o b).failure) =
        some st'.validbuilders ∧
      st'.completed = st.completed ∪
        (st.pending.filter fun b => (o b).complete).toFinset ∧
      st'.cancelled = st.cancelled ∪
        (st.pending.filter fun b => !(o b).complete && (o b).failure).toFinset := by
  rw [pollStep_def] at h
  split at h
  case isTrue hall =>
    simp only [Option.bind_eq_some, Option.some.injEq] at h
    obtain ⟨p1, hp1, p2, hp2, v, hv, hst⟩ := h
    subst hst
    exact ⟨by simpa [List.all_eq_true] using hall, p1, hp1, hp2, hv, rfl, rfl⟩
  case isFalse => cases h

theorem pollStep_pending_sub {reg : Registry} {o : Builder → PollView}
    {st st' : OrchState} (h : pollStep reg o st = some st') :
    st'.pending.Sublist st.pending := by
  obtain ⟨-, p1, hp1, hp2, -, -, -⟩ := pollStep_eq_some h
  exact (removeAll_sublist hp2).trans (removeAll_sublist hp1)

theorem pollStep_mem_pending {reg : Registry} {o : Builder → PollView}
    {st st' : OrchState} (h : pollStep reg o st = some st') {b : Builder}
    (hb : b ∈ st'.pending) :
    b ∈ st.pending ∧ (o b).complete = false ∧ (o b).failure = false := by
  obtain ⟨-, p1, hp1, hp2, -, -, -⟩ := pollStep_eq_some h
  have hbp1 : b ∈ p1 := (removeAll_sublist hp2).subset hb
  have hbp : b ∈ st.pending := (removeAll_sublist hp1).subset hbp1
  have h1 := removeAll_count hp1 b
  have h2 := removeAll_count hp2 b
  rw [count_filter_eq] at h1
  rw [count_filter_eq] at h2
  have hbcount : 0 < st'.pending.count b := List.count_pos_iff.mpr hb
  have hpcount : 0 < st.pending.count b := List.count_pos_iff.mpr hbp
  refine ⟨hbp, ?_⟩
  cases hco : (o b).complete <;> cases hfa : (o b).failure <;>
    simp only [hco, hfa, Bool.not_true, Bool.not_false, Bool.true_and,
      Bool.false_and, Bool.and_true, Bool.and_false, if_true, if_false,
      ite_true, ite_false, Bool.false_eq_true, Bool.true_eq_false] at h1 h2 ⊢
  · exact ⟨trivial, trivial⟩
  · omega
  · omega
  · omega

theorem pollStep_sets {reg : Registry} {o : Builder → PollView}
    {st st' : OrchState} (h : pollStep reg o st = some st') :
    st'.validbuilders.Sublist st.validbuilders ∧
    st.completed ⊆ st'.completed ∧
    st.cancelled ⊆ st'.cancelled ∧
    (∀ b ∈ st'.completed, b ∈ st.completed ∨ b ∈ st.pending) ∧
    (∀ b ∈ st'.cancelled, b ∈ st.cancelled ∨ b ∈ st.pending) := by
  obtain ⟨-, p1, hp1, hp2, hv, hc, hx⟩ := pollStep_eq_some h
  refine ⟨removeAll_sublist hv, ?_, ?_, ?_, ?_⟩
  · rw [hc]; exact Finset.subset_union_left
  · rw [hx]; exact Finset.subset_union_left
  · intro b hb
    rw [hc] at hb
    rcases Finset.mem_union.mp hb with hmem | hmem
    · exact .inl hmem
    · exact .inr (List.mem_filter.mp (List.mem_toFinset.mp hmem)).1
  · intro b hb
    rw [hx] at hb
    rcases Finset.mem_union.mp hb with hmem | hmem
    · exact .inl hmem
    · exact .inr (List.mem_filter.mp (List.mem_toFinset.mp hmem)).1

theorem pollStep_AtMostOne {reg : Registry} {o : Builder → PollView}
    {st st' : OrchState} (hinv : AtMostOne st)
    (h : pollStep reg o st = some st') : AtMostOne st' := by
  obtain ⟨hPC, hPX, hCX⟩ := hinv
  obtain ⟨-, p1, hp1, hp2, hv, hc, hx⟩ := pollStep_eq_some h
  refine ⟨?_, ?_, ?_⟩
  · intro b hb
    obtain ⟨hbp, hco, -⟩ := pollStep_mem_pending h hb
    simp only [hc, Finset.mem_union, List.mem_toFinset, List.mem_filter, hco]
    simp only [Bool.false_eq_true, and_false, or_false]
    exact hPC b hbp
  · intro b hb
    obtain ⟨hbp, hco, hfa⟩ := pollStep_mem_pending h hb
    simp only [hx, Finset.mem_union, List.mem_toFinset, List.mem_filter, hco,
      hfa]
    simp only [Bool.and_false, Bool.false_eq_true, and_false, or_false]
    exact hPX b hbp
  · intro b hb
    rw [hc] at hb
    rw [hx]
    simp only [Finset.mem_union, List.mem_toFinset, List.mem_filter, not_or,
      not_and]
    rcases Finset.mem_union.mp hb with hmem | hmem
    · exact ⟨hCX b hmem, fun hbp _ => absurd hmem (hPC b hbp)⟩
    · obtain ⟨hbp, hbc⟩ := List.mem_filter.mp (List.mem_toFinset.mp hmem)
      refine ⟨fun hbx => absurd hbx (hPX b hbp), fun _ hcanc => ?_⟩
      rw [hbc] at hcanc
      simp at hcanc

theorem pollStep_isSome {reg : Registry} {o : Builder → PollView}
    {st : OrchState}
    (hreg : ∀ b ∈ st.pending, (getExec reg b.executor).isSome)
    (hinv : PendingBacked st) : (pollStep reg o st).isSome := by
  rw [pollStep_def, if_pos (by simpa [List.all_eq_true] using hreg)]
  have hcomp : ∀ b, (st.pending.filter fun x => (o x).complete).count b ≤
      st.pending.count b := by
    intro b
    rw [count_filter_eq]
    split <;> omega
  obtain ⟨p1, hp1⟩ := Option.isSome_iff_exists.mp (removeAll_isSome hcomp)
  rw [hp1, Option.some_bind]
  have hcanc1 : ∀ b,
      (st.pending.filter fun x => !(o x).complete && (o x).failure).count b ≤
      p1.count b := by
    intro b
    have h1 := removeAll_count hp1 b
    rw [count_filter_eq] at h1
    rw [count_filter_eq]
    cases hco : (o b).complete <;> cases hfa : (o b).failure <;>
      simp only [hco, hfa, Bool.not_true, Bool.not_false, Bool.true_and,
        Bool.false_and, Bool.and_true, Bool.and_false, if_true, if_false,
        ite_true, ite_false, Bool.false_eq_true, Bool.true_eq_false] at h1 ⊢ <;>
      omega
  obtain ⟨p2, hp2⟩ := Option.isSome_iff_exists.mp (removeAll_isSome hcanc1)
  rw [hp2, Option.some_bind]
  have hcanc2 : ∀ b,
      (st.pending.filter fun x => !(o x).complete && (o x).failure).count b ≤
      st.validbuilders.count b := by
    intro b
    by_cases hb : b ∈ st.pending
    · refine le_trans ?_ (hinv b hb)
      rw [count_filter_eq]
      split <;> omega
    · have : b ∉ st.pending.filter fun x => !(o x).complete && (o x).failure :=
        fun hmem => hb (List.mem_filter.mp hmem).1
      rw [List.count_eq_zero.mpr this]
      omega
  obtain ⟨v, hv⟩ := Option.isSome_iff_exists.mp (removeAll_isSome hcanc2)
  rw [hv, Option.some_bind]
  rfl

theorem pollStep_PendingBacked {reg : Registry} {o : Builder → PollView}
    {st st' : OrchState} (hinv : PendingBacked st)
    (h : pollStep reg o st = some st') : PendingBacked st' := by
  obtain ⟨-, p1, hp1, hp2, hv, -, -⟩ := pollStep_eq_some h
  intro b hb
  have hbp : b ∈ st.pending :=
    ((removeAll_sublist hp2).trans (removeAll_sublist hp1)).subset hb
  have h1 := removeAll_count hp1 b
  have h2 := removeAll_count hp2 b
  have h3 := removeAll_count hv b
  have hle := hinv b hbp
  omega

/-! ### Lemmas about the whole polling loop -/

theorem pollLoop_inv {reg : Registry} {o : Nat → Builder → PollView} :
    ∀ {fuel i : Nat} {st st' : OrchState},
      pollLoop reg o fuel i st = some st' →
      st'.pending.Sublist st.pending ∧
      st'.validbuilders.Sublist st.validbuilders ∧
      st.completed ⊆ st'.completed ∧
      st.cancelled ⊆ st'.cancelled ∧
      (∀ b ∈ st'.completed, b ∈ st.completed ∨ b ∈ st.pending) ∧
      (∀ b ∈ st'.cancelled, b ∈ st.cancelled ∨ b ∈ st.pending) ∧
      (AtMostOne st → AtMostOne st') := by
  intro fuel
  induction fuel with
  | zero =>
    intro i st st' h
    obtain rfl : st = st' := Option.some.inj h
    exact ⟨List.Sublist.refl _, List.Sublist.refl _, Finset.Subset.refl _,
      Finset.Subset.refl _, fun b hb => .inl hb, fun b hb => .inl hb, id⟩
  | succ fuel ih =>
    intro i st st' h
    rw [pollLoop] at h
    split at h
    · obtain rfl : st = st' := Option.some.inj h
      exact ⟨List.Sublist.refl _, List.Sublist.refl _, Finset.Subset.refl _,
        Finset.Subset.refl _, fun b hb => .inl hb, fun b hb => .inl hb, id⟩
    · cases hstep : pollStep reg (o i) st with
      | none => rw [hstep] at h; cases h
      | some st1 =>
        rw [hstep] at h
        obtain ⟨hp, hv, hcs, hxs, hco, hxo, hone⟩ := ih h
        obtain ⟨hv1, hcs1, hxs1, hco1, hxo1⟩ := pollStep_sets hstep
        have hp1 := pollStep_pending_sub hstep
        refine ⟨hp.trans hp1, hv.trans hv1, hcs1.trans hcs, hxs1.trans hxs,
          ?_, ?_, fun ha => hone (pollStep_AtMostOne ha hstep)⟩
        · intro b hb
          rcases hco b hb with hmem | hmem
          · rcases hco1 b hmem with hmem' | hmem'
            · exact .inl hmem'
            · exact .inr hmem'
          · exact .inr (hp1.subset hmem)
        · intro b hb
          rcases hxo b hb with hmem | hmem
          · rcases hxo1 b hmem with hmem' | hmem'
            · exact .inl hmem'
            · exact .inr hmem'
          · exact .inr (hp1.subset hmem)

theorem pollLoop_isSome {reg : Registry} {o : Nat → Builder → PollView} :
    ∀ {fuel i : Nat} {st : OrchState},
      (∀ b ∈ st.pending, (getExec reg b.executor).isSome) →
      PendingBacked st → (pollLoop reg o fuel i st).isSome := by
  intro fuel
  induction fuel with
  | zero => intro i st _ _; simp [pollLoop]
  | succ fuel ih =>
    intro i st hreg hinv
    rw [pollLoop]
    split
    · simp
    · cases hstep : pollStep reg (o i) st with
      | none =>
        have := pollStep_isSome (o := o i) hreg hinv
        rw [hstep] at this
        cases this
      | some st1 =>
        exact ih
          (fun b hb => hreg b ((pollStep_pending_sub hstep).subset hb))
          (pollStep_PendingBacked hinv hstep)

/-! ### Lemmas about the run (submission) phase -/

theorem chooseExecutor_error {reg : Registry} {c : Builder} {e : ExcKind}
    (h : chooseExecutor reg c = .error e) : e = .executorError := by
  unfold chooseExecutor at h
  cases hge : getExec reg c.executor <;> rw [hge] at h
  · exact (Except.error.inj h).symm
  · cases h

theorem chooseExecutor_ok {reg : Registry} {c : Builder} {ex : Executor}
    (h : chooseExecutor reg c = .ok ex) : getExec reg c.executor = some ex := by
  unfold chooseExecutor at h
  cases hge : getExec reg c.executor <;> rw [hge] at h
  · cases h
  · rw [Except.ok.inj h]

theorem resolveAll_error_of_mem {reg : Registry} {bs : List Builder}
    {b : Builder} (hb : b ∈ bs) (h : getExec reg b.executor = none) :
    resolveAll reg bs = .error .executorError := by
  induction bs with
  | nil => cases hb
  | cons c cs ih =>
    rcases List.mem_cons.mp hb with rfl | hmem
    · simp [resolveAll, chooseExecutor, h]
    · rw [resolveAll]
      cases hc : chooseExecutor reg c with
      | error e => rw [chooseExecutor_error hc]
      | ok ex => exact ih hmem

theorem run_eq_ok {reg : Registry} {eR : Builder → Builder}
    {eD : Builder → Option Builder} {bs : List Builder} {st : OrchState}
    (h : run reg eR eD bs = .ok st) :
    ∃ results, submitAll reg eR eD bs = .ok results ∧
      st.validbuilders = results.filterMap id ∧
      st.pending = (results.filterMap id).filter (fun b => b.is_batch_job) ∧
      st.completed = ∅ ∧ st.cancelled = ∅ := by
  unfold run at h
  cases hres : resolveAll reg bs <;> rw [hres] at h
  · cases h
  · cases hsub : submitAll reg eR eD bs <;> rw [hsub] at h
    · cases h
    · obtain rfl := Except.ok.inj h
      exact ⟨_, rfl, rfl, rfl, rfl, rfl⟩

theorem submitAll_mem {reg : Registry} {eR : Builder → Builder}
    {eD : Builder → Option Builder} :
    ∀ {bs : List Builder} {results : List (Option Builder)},
      submitAll reg eR eD bs = .ok results →
      ∀ r ∈ results.filterMap id,
        ∃ c ∈ bs, ∃ ex, getExec reg c.executor = some ex ∧
          ((ex.type = "local" ∧ r = eR c) ∨
            (ex.type ≠ "local" ∧ eD c = some r)) := by
  intro bs
  induction bs with
  | nil =>
    intro results h r hr
    obtain rfl : ([] : List (Option Builder)) = results := Except.ok.inj h
    cases hr
  | cons c cs ih =>
    intro results h r hr
    rw [submitAll] at h
    cases hc : chooseExecutor reg c <;> rw [hc] at h
    · cases h
    · cases hsub : submitAll reg eR eD cs <;> rw [hsub] at h
      · cases h
      · rename_i ex rest
        obtain rfl := Except.ok.inj h
        have hge := chooseExecutor_ok hc
        by_cases hty : ex.type = "local"
        · rw [if_pos hty] at hr
          simp only [List.filterMap_cons, id_eq] at hr
          rcases List.mem_cons.mp hr with rfl | hmem
          · exact ⟨c, List.mem_cons_self c cs, ex, hge, .inl ⟨hty, rfl⟩⟩
          · obtain ⟨c', hc', hrest⟩ := ih hsub r hmem
            exact ⟨c', List.mem_cons_of_mem c hc', hrest⟩
        · rw [if_neg hty] at hr
          cases hd : eD c with
          | none =>
            rw [hd] at hr
            simp only [List.filterMap_cons, id_eq] at hr
            obtain ⟨c', hc', hrest⟩ := ih hsub r hr
            exact ⟨c', List.mem_cons_of_mem c hc', hrest⟩
          | some y =>
            rw [hd] at hr
            simp only [List.filterMap_cons, id_eq] at hr
            rcases List.mem_cons.mp hr with rfl | hmem
            · exact ⟨c, List.mem_cons_self c cs, ex, hge, .inr ⟨hty, hd⟩⟩
            · obtain ⟨c', hc', hrest⟩ := ih hsub r hmem
              exact ⟨c', List.mem_cons_of_mem c hc', hrest⟩

/-! ### Lemmas about `setup` (before-script generation) -/

theorem FS.ext' {f g : FS} (hd : ∀ p, f.dirs p = g.dirs p)
    (hf : ∀ p, f.files p = g.files p) : f = g := by
  cases f; cases g
  simp only [FS.mk.injEq]
  exact ⟨funext hd, funext hf⟩

theorem scriptPath_inj {root n1 n2 : String}
    (h : scriptPath root n1 = scriptPath root n2) : n1 = n2 := by
  unfold scriptPath at h
  have hd := congrArg String.data h
  simp only [String.data_append] at hd
  exact String.ext (List.append_cancel_left (List.append_cancel_right hd))

theorem setup_files_untouched {gmc : Option String → List String}
    {root : String} :
    ∀ {reg : Registry} {fs : FS} {p : String},
      (∀ entry ∈ reg, scriptPath root entry.1 ≠ p) →
      (setup gmc root reg fs).files p = fs.files p := by
  intro reg
  induction reg with
  | nil => intro fs p _; rfl
  | cons entry rest ih =>
    intro fs p hne
    obtain ⟨n, e⟩ := entry
    rw [setup, ih (fun m hm => hne m (List.mem_cons_of_mem _ hm))]
    simp only [write_file, create_dir]
    rw [if_neg]
    exact fun hp => hne (n, e) (List.mem_cons_self _ _) hp.symm

theorem setup_dirs_untouched {gmc : Option String → List String}
    {root : String} :
    ∀ {reg : Registry} {fs : FS} {d : String},
      (∀ entry ∈ reg, dirPath root entry.1 ≠ d) →
      (setup gmc root reg fs).dirs d = fs.dirs d := by
  intro reg
  induction reg with
  | nil => intro fs d _; rfl
  | cons entry rest ih =>
    intro fs d hne
    obtain ⟨n, e⟩ := entry
    rw [setup, ih (fun m hm => hne m (List.mem_cons_of_mem _ hm))]
    simp only [write_file, create_dir]
    rw [if_neg]
    exact fun hd => hne (n, e) (List.mem_cons_self _ _) hd.symm

theorem setup_dirs_mono {gmc : Option String → List String} {root : String} :
    ∀ {reg : Registry} {fs : FS} {d : String},
      fs.dirs d = true → (setup gmc root reg fs).dirs d = true := by
  intro reg
  induction reg with
  | nil => intro fs d h; exact h
  | cons entry rest ih =>
    intro fs d h
    obtain ⟨n, e⟩ := entry
    rw [setup]
    apply ih
    simp only [write_file, create_dir]
    split <;> simp [h]

theorem setup_files_mem {gmc : Option String → List String} {root : String} :
    ∀ {reg : Registry} {fs : FS} {n : String} {e : Executor},
      (n, e) ∈ reg → (reg.map Prod.fst).Nodup →
      (setup gmc root reg fs).files (scriptPath root n) =
        some (scriptContent gmc e.settings) := by
  intro reg
  induction reg with
  | nil => intro fs n e hmem _; cases hmem
  | cons entry rest ih =>
    intro fs n e hmem hnd
    obtain ⟨m, ex⟩ := entry
    rw [List.map_cons, List.nodup_cons] at hnd
    rcases List.mem_cons.mp hmem with heq | hmem'
    · injection heq with h1 h2
      subst h1
      subst h2
      -- head entry: the write survives the recursion over `rest`
      have hrest : ∀ entry ∈ rest, scriptPath root entry.1 ≠ scriptPath root n := by
        intro q hq hpath
        have h1 : q.1 = n := scriptPath_inj hpath
        exact hnd.1 (List.mem_map.mpr ⟨q, hq, h1⟩)
      rw [setup, setup_files_untouched hrest]
      simp [write_file]
    · exact ih hmem' hnd.2

theorem setup_dirs_mem {gmc : Option String → List String} {root : String} :
    ∀ {reg : Registry} {fs : FS} {n : String} {e : Executor},
      (n, e) ∈ reg → (setup gmc root reg fs).dirs (dirPath root n) = true := by
  intro reg
  induction reg with
  | nil => intro fs n e hmem; cases hmem
  | cons entry rest ih =>
    intro fs n e hmem
    obtain ⟨m, ex⟩ := entry
    rcases List.mem_cons.mp hmem with heq | hmem'
    · injection heq with h1 h2
      subst h1
      rw [setup]
      apply setup_dirs_mono
      simp [write_file, create_dir]
    · rw [setup]
      exact ih hmem'

theorem setup_files_indep {gmc : Option String → List String} {root : String} :
    ∀ {reg : Registry} {fs1 fs2 : FS} {p : String},
      (∃ entry ∈ reg, scriptPath root entry.1 = p) →
      (setup gmc root reg fs1).files p = (setup gmc root reg fs2).files p := by
  intro reg
  induction reg with
  | nil =>
    intro fs1 fs2 p h
    obtain ⟨entry, hmem, -⟩ := h
    cases hmem
  | cons entry rest ih =>
    intro fs1 fs2 p h
    obtain ⟨m, ex⟩ := entry
    by_cases hrest : ∃ q ∈ rest, scriptPath root q.1 = p
    · rw [setup, setup]
      exact ih hrest
    · push_neg at hrest
      obtain ⟨q, hq, hqp⟩ := h
      rcases List.mem_cons.mp hq with heq | hq'
      · subst heq
        rw [setup, setup, setup_files_untouched hrest,
          setup_files_untouched hrest]
        simp only [write_file, create_dir]
        rw [← hqp]
        simp
      · exact absurd hqp (hrest q hq')

theorem setup_dirs_indep {gmc : Option String → List String} {root : String} :
    ∀ {reg : Registry} {fs1 fs2 : FS} {d : String},
      (∃ entry ∈ reg, dirPath root entry.1 = d) →
      (setup gmc root reg fs1).dirs d = (setup gmc root reg fs2).dirs d := by
  intro reg
  induction reg with
  | nil =>
    intro fs1 fs2 d h
    obtain ⟨entry, hmem, -⟩ := h
    cases hmem
  | cons entry rest ih =>
    intro fs1 fs2 d h
    obtain ⟨m, ex⟩ := entry
    by_cases hrest : ∃ q ∈ rest, dirPath root q.1 = d
    · rw [setup, setup]
      exact ih hrest
    · push_neg at hrest
      obtain ⟨q, hq, hqd⟩ := h
      rcases List.mem_cons.mp hq with heq | hq'
      · subst heq
        rw [setup, setup, setup_dirs_untouched hrest,
          setup_dirs_untouched hrest]
        simp only [write_file, create_dir]
        rw [← hqd]
        simp
      · exact absurd hqd (hrest q hq')

theorem setup_idem (gmc : Option String → List String) (root : String)
    (reg : Registry) (fs : FS) :
    setup gmc root reg (setup gmc root reg fs) = setup gmc root reg fs := by
  apply FS.ext'
  · intro d
    by_cases hd : ∃ entry ∈ reg, dirPath root entry.1 = d
    · exact setup_dirs_indep hd
    · push_neg at hd
      rw [setup_dirs_untouched hd]
  · intro p
    by_cases hp : ∃ entry ∈ reg, scriptPath root entry.1 = p
    · exact setup_files_indep hp
    · push_neg at hp
      rw [setup_files_untouched hp]

/-! ### Lemmas for the registry accessor and claim C4 -/

theorem getExec_eq_none {reg : Registry} {n : String}
    (h : n ∉ reg.map Prod.fst) : getExec reg n = none := by
  induction reg with
  | nil => rfl
  | cons entry rest ih =>
    obtain ⟨k, e⟩ := entry
    rw [List.map_cons] at h
    rw [getExec]
    split
    · rename_i hk
      subst hk
      exact absurd (List.mem_cons_self _ _) h
    · exact ih fun hmem => h (List.mem_cons_of_mem _ hmem)

theorem pollLoop_Untracked {reg : Registry} {o : Nat → Builder → PollView}
    {fuel i : Nat} {st st' : OrchState}
    (h : pollLoop reg o fuel i st = some st') {n : Nat}
    (hu : Untracked st n) : Untracked st' n := by
  obtain ⟨hp, hv, -, -, hco, hxo, -⟩ := pollLoop_inv h
  obtain ⟨h1, h2, h3, h4⟩ := hu
  refine ⟨fun c hc => h1 c (hp.subset hc), fun c hc => ?_, fun c hc => ?_,
    fun c hc => h4 c (hv.subset hc)⟩
  · rcases hco c hc with hm | hm
    · exact h2 c hm
    · exact h1 c hm
  · rcases hxo c hc with hm | hm
    · exact h3 c hm
    · exact h1 c hm

theorem run_Untracked {reg : Registry} {eR : Builder → Builder}
    {eD : Builder → Option Builder} {bs : List Builder} {b : Builder}
    {e : Executor} {st : OrchState}
    (hrun : run reg eR eD bs = .ok st)
    (hmem : b ∈ bs) (he : getExec reg b.executor = some e)
    (hty : e.type ≠ "local") (hD : eD b = none)
    (hRn : ∀ x, (eR x).name = x.name)
    (hDn : ∀ x y, eD x = some y → y.name = x.name)
    (huniq : ∀ b' ∈ bs, b'.name = b.name → b' = b) :
    Untracked st b.name := by
  obtain ⟨results, hsub, hvb, hpend, hcomp, hcanc⟩ := run_eq_ok hrun
  have hvalid : ∀ r ∈ results.filterMap id, r.name ≠ b.name := by
    intro r hr hname
    obtain ⟨c, hc, ex, hex, hcase⟩ := submitAll_mem hsub r hr
    rcases hcase with ⟨hl, rfl⟩ | ⟨-, hd⟩
    · have hcb : c = b := huniq c hc ((hRn c).symm.trans hname)
      subst hcb
      rw [he] at hex
      exact hty (Option.some.inj hex ▸ hl)
    · have hcb : c = b := huniq c hc ((hDn c r hd).symm.trans hname)
      subst hcb
      rw [hD] at hd
      cases hd
  refine ⟨?_, ?_, ?_, ?_⟩
  · intro c hc
    rw [hpend] at hc
    exact hvalid c (List.mem_filter.mp hc).1
  · intro c hc
    rw [hcomp] at hc
    cases hc
  · intro c hc
    rw [hcanc] at hc
    cases hc
  · intro c hc
    rw [hvb] at hc
    exact hvalid c hc

/-! ### The claims -/

/-- C1: for every builder handed to the orchestrator, at every point in a
run-then-poll execution the builder belongs to at most one of the tracking
sets (pending, completed, cancelled): `run` establishes the invariant, every
poll iteration preserves it (and so does the whole loop), and the only
membership transitions ever made are pending to completed and pending to
cancelled — pending never grows, completed and cancelled never lose members,
new completed/cancelled members come from pending only, and no builder moves
between completed and cancelled. -/
theorem claim_C1 (reg : Registry) (eR : Builder → Builder)
    (eD : Builder → Option Builder) (bs : List Builder) (st0 : OrchState)
    (o : Builder → PollView) (st st' : OrchState)
    (o2 : Nat → Builder → PollView) (fuel i : Nat) (st2 : OrchState)
    (hrun : run reg eR eD bs = .ok st0)
    (hinv : AtMostOne st)
    (hstep : pollStep reg o st = some st')
    (hloop : pollLoop reg o2 fuel i st0 = some st2) :
    AtMostOne st0 ∧
    AtMostOne st' ∧
    AtMostOne st2 ∧
    (∀ b ∈ st'.pending, b ∈ st.pending) ∧
    st.completed ⊆ st'.completed ∧
    st.cancelled ⊆ st'.cancelled ∧
    (∀ b ∈ st'.completed, b ∈ st.completed ∨ b ∈ st.pending) ∧
    (∀ b ∈ st'.cancelled, b ∈ st.cancelled ∨ b ∈ st.pending) ∧
    (∀ b ∈ st.completed, b ∉ st'.cancelled) ∧
    (∀ b ∈ st.cancelled, b ∉ st'.completed) := by
  obtain ⟨-, -, -, -, hc0, hx0⟩ := run_eq_ok hrun
  have h0 : AtMostOne st0 := by
    refine ⟨fun b _ => ?_, fun b _ => ?_, fun b hb => ?_⟩
    · rw [hc0]; exact Finset.not_mem_empty b
    · rw [hx0]; exact Finset.not_mem_empty b
    · rw [hc0] at hb; exact absurd hb (Finset.not_mem_empty b)
  obtain ⟨-, hcs, hxs, hco, hxo⟩ := pollStep_sets hstep
  obtain ⟨-, p1, hp1, hp2, hv, hcset, hxset⟩ := pollStep_eq_some hstep
  refine ⟨h0, pollStep_AtMostOne hinv hstep,
    (pollLoop_inv hloop).2.2.2.2.2.2 h0,
    fun b hb => (pollStep_pending_sub hstep).subset hb,
    hcs, hxs, hco, hxo, ?_, ?_⟩
  · intro b hb hb'
    rw [hxset] at hb'
    rcases Finset.mem_union.mp hb' with hm | hm
    · exact hinv.2.2 b hb hm
    · exact hinv.1 b (List.mem_filter.mp (List.mem_toFinset.mp hm)).1 hb
  · intro b hb hb'
    rw [hcset] at hb'
    rcases Finset.mem_union.mp hb' with hm | hm
    · exact hinv.2.2 b hm hb
    · exact hinv.2.1 b (List.mem_filter.mp (List.mem_toFinset.mp hm)).1 hb

theorem claim_C1_witness :
    AtMostOne st0W ∧
    AtMostOne stCW ∧
    AtMostOne stCW ∧
    (∀ b ∈ stCW.pending, b ∈ st0W.pending) ∧
    st0W.completed ⊆ stCW.completed ∧
    st0W.cancelled ⊆ stCW.cancelled ∧
    (∀ b ∈ stCW.completed, b ∈ st0W.completed ∨ b ∈ st0W.pending) ∧
    (∀ b ∈ stCW.cancelled, b ∈ st0W.cancelled ∨ b ∈ st0W.pending) ∧
    (∀ b ∈ st0W.completed, b ∉ stCW.cancelled) ∧
    (∀ b ∈ st0W.cancelled, b ∉ stCW.completed) :=
  claim_C1 sampleReg sampleRun sampleDispatch [sampleBatch] st0W
    (fun _ => ⟨true, false⟩) st0W stCW
    (fun _ _ => ⟨true, false⟩) 2 0 stCW
    rfl (by decide) (by decide) (by decide)

/-- C2: after the initial partition step of `run`, each poll iteration leaves
the pending set either strictly smaller or unchanged (it is always a sublist
of the previous pending list), and no operation ever adds a member: this
holds for a single `pollStep` from any state and for the whole `pollLoop`
started at the state `run` produced. -/
theorem claim_C2 (reg : Registry) (eR : Builder → Builder)
    (eD : Builder → Option Builder) (bs : List Builder) (st0 : OrchState)
    (o : Builder → PollView) (st st' : OrchState)
    (o2 : Nat → Builder → PollView) (fuel i : Nat) (st2 : OrchState)
    (hrun : run reg eR eD bs = .ok st0)
    (hstep : pollStep reg o st = some st')
    (hloop : pollLoop reg o2 fuel i st0 = some st2) :
    st'.pending.Sublist st.pending ∧
    st'.pending.length ≤ st.pending.length ∧
    (st'.pending.length < st.pending.length ∨ st'.pending = st.pending) ∧
    (∀ b ∈ st'.pending, b ∈ st.pending) ∧
    st2.pending.Sublist st0.pending := by
  have hs := pollStep_pending_sub hstep
  refine ⟨hs, hs.length_le, ?_, fun b hb => hs.subset hb, (pollLoop_inv hloop).1⟩
  rcases Nat.lt_or_ge st'.pending.length st.pending.length with hlt | hge
  · exact .inl hlt
  · exact .inr (hs.eq_of_length (Nat.le_antisymm hs.length_le hge))

theorem claim_C2_witness :
    stCW.pending.Sublist st0W.pending ∧
    stCW.pending.length ≤ st0W.pending.length ∧
    (stCW.pending.length < st0W.pending.length ∨ stCW.pending = st0W.pending) ∧
    (∀ b ∈ stCW.pending, b ∈ st0W.pending) ∧
    stCW.pending.Sublist st0W.pending :=
  claim_C2 sampleReg sampleRun sampleDispatch [sampleBatch] st0W
    (fun _ => ⟨true, false⟩) st0W stCW
    (fun _ _ => ⟨true, false⟩) 2 0 stCW
    rfl (by decide) (by decide)

/-- C3: in a poll iteration, a pending builder observed with both
`is_complete()` and `is_failure()` true is classified completed — it is added
to the completed set, not to the cancelled set, and leaves pending — because
the code checks `is_complete()` first (`if`/`elif`), so complete takes
priority over failure. -/
theorem claim_C3 (reg : Registry) (o : Builder → PollView)
    (st st' : OrchState) (b : Builder)
    (hb : b ∈ st.pending)
    (hc : (o b).complete = true) (hf : (o b).failure = true)
    (hinv : AtMostOne st)
    (hstep : pollStep reg o st = some st') :
    b ∈ st'.completed ∧ b ∉ st'.cancelled ∧ b ∉ st'.pending := by
  obtain ⟨-, p1, hp1, hp2, hv, hcset, hxset⟩ := pollStep_eq_some hstep
  refine ⟨?_, ?_, ?_⟩
  · rw [hcset]
    exact Finset.mem_union_right _
      (List.mem_toFinset.mpr (List.mem_filter.mpr ⟨hb, hc⟩))
  · rw [hxset]
    simp only [Finset.mem_union, List.mem_toFinset, List.mem_filter, not_or,
      not_and]
    refine ⟨hinv.2.1 b hb, fun _ hcanc => ?_⟩
    rw [hc] at hcanc
    simp at hcanc
  · intro hbp
    obtain ⟨-, hco, -⟩ := pollStep_mem_pending hstep hbp
    rw [hc] at hco
    cases hco

theorem claim_C3_witness :
    sampleJob ∈ stCW.completed ∧ sampleJob ∉ stCW.cancelled ∧
    sampleJob ∉ stCW.pending :=
  claim_C3 sampleReg (fun _ => ⟨true, true⟩) st0W stCW sampleJob
    (by decide) (by decide) (by decide) (by decide) (by decide)

/-- C7: the state `run` produces satisfies `PendingBacked` (every pending
occurrence is backed by a `_validbuilders` occurrence); under that invariant
a poll iteration never fails — in particular the single
`_validbuilders.remove` done for each cancelled builder always finds it, so
no `ValueError` is raised — the invariant is preserved, and hence the whole
poll loop completes without any removal error. -/
theorem claim_C7 (reg : Registry) (eR : Builder → Builder)
    (eD : Builder → Option Builder) (bs : List Builder) (st0 : OrchState)
    (o : Builder → PollView) (st st' : OrchState)
    (o2 : Nat → Builder → PollView) (fuel i : Nat)
    (hrun : run reg eR eD bs = .ok st0)
    (hinv : PendingBacked st)
    (hreg : ∀ b ∈ st.pending, (getExec reg b.executor).isSome)
    (hreg0 : ∀ b ∈ st0.pending, (getExec reg b.executor).isSome)
    (hstep : pollStep reg o st = some st') :
    PendingBacked st0 ∧
    (pollStep reg o st).isSome ∧
    PendingBacked st' ∧
    (pollLoop reg o2 fuel i st0).isSome := by
  obtain ⟨results, -, hvb0, hp0, -, -⟩ := run_eq_ok hrun
  have hsub0 : st0.pending.Sublist st0.validbuilders := by
    rw [hp0, hvb0]
    exact List.filter_sublist _
  have h0 : PendingBacked st0 := fun b _ => hsub0.count_le b
  exact ⟨h0, pollStep_isSome hreg hinv, pollStep_PendingBacked hinv hstep,
    pollLoop_isSome hreg0 h0⟩

theorem claim_C7_witness :
    PendingBacked st0W ∧
    (pollStep sampleReg (fun _ => ⟨false, true⟩) st0W).isSome ∧
    PendingBacked stXW ∧
    (pollLoop sampleReg (fun _ _ => ⟨false, true⟩) 2 0 st0W).isSome :=
  claim_C7 sampleReg sampleRun sampleDispatch [sampleBatch] st0W
    (fun _ => ⟨false, true⟩) st0W stXW
    (fun _ _ => ⟨false, true⟩) 2 0
    rfl (by decide) (by decide) (by decide) (by decide)

theorem sampleDispatch_name :
    ∀ x y, sampleDispatch x = some y → y.name = x.name := by
  intro x y h
  unfold sampleDispatch at h
  split at h
  · rename_i h0
    obtain rfl := Option.some.inj h
    exact h0.symm
  · cases h

/-- C4: an asynchronous builder whose dispatch returns no job is silently
dropped: after `run` — and still after any number of poll iterations — no
builder with its identity appears in valid-builders, pending, completed, or
cancelled; in particular it does not appear in the final cancelled-jobs
report, which enumerates the cancelled set. -/
theorem claim_C4 (reg : Registry) (eR : Builder → Builder)
    (eD : Builder → Option Builder) (bs : List Builder) (b : Builder)
    (e : Executor) (st0 st' : OrchState) (o : Nat → Builder → PollView)
    (fuel i : Nat)
    (hmem : b ∈ bs)
    (he : getExec reg b.executor = some e)
    (hty : e.type ≠ "local")
    (hD : eD b = none)
    (hRn : ∀ x, (eR x).name = x.name)
    (hDn : ∀ x y, eD x = some y → y.name = x.name)
    (huniq : ∀ b' ∈ bs, b'.name = b.name → b' = b)
    (hrun : run reg eR eD bs = .ok st0)
    (hloop : pollLoop reg o fuel i st0 = some st') :
    Untracked st0 b.name ∧ Untracked st' b.name := by
  have h0 := run_Untracked hrun hmem he hty hD hRn hDn huniq
  exact ⟨h0, pollLoop_Untracked hloop h0⟩

theorem claim_C4_witness :
    Untracked stEW 2 ∧ Untracked stEW 2 :=
  claim_C4 sampleReg sampleRun sampleDispatch [⟨2, "s1", none⟩]
    ⟨2, "s1", none⟩ ⟨"slurm", ⟨none, none⟩⟩ stEW stEW
    (fun _ _ => ⟨false, false⟩) 1 0
    (by decide) rfl (by decide) rfl (fun _ => rfl) sampleDispatch_name
    (by decide) rfl (by decide)

/-- C5: the worker-pool width used by `run` equals the spec's formula
`min(configured_or_default, host_execution_units)` and is at least 1, for
every validated configuration (a configured worker count is positive) on a
host with at least one execution unit. -/
theorem claim_C5 (numprocs : Option Nat) (cpu : Nat) (hcpu : 0 < cpu)
    (hpos : ∀ k, numprocs = some k → 0 < k) :
    numWorkers numprocs cpu = specWorkerWidth numprocs cpu ∧
    1 ≤ numWorkers numprocs cpu := by
  cases numprocs with
  | none =>
    refine ⟨rfl, ?_⟩
    simpa [numWorkers, pyOrNat] using hcpu
  | some k =>
    have hk := hpos k rfl
    have hk0 : k ≠ 0 := by omega
    have hpy : pyOrNat (some k) cpu = k := by simp [pyOrNat, hk0]
    constructor
    · rw [numWorkers, specWorkerWidth, hpy, Option.getD_some]
    · rw [numWorkers, hpy]
      exact le_min hk hcpu

theorem claim_C5_witness :
    numWorkers (some 4) 2 = specWorkerWidth (some 4) 2 ∧
    1 ≤ numWorkers (some 4) 2 :=
  claim_C5 (some 4) 2 (by decide) (fun k hk => by injection hk with h; omega)

/-- C6 counterexample: with a builder whose executor name is unregistered,
`run` aborts with `ExecutorError` and not with the `ConfigurationError` the
claim names. -/
theorem claim_C6_counterexample :
    run sampleReg sampleRun sampleDispatch [⟨3, "nope", none⟩] =
      .error .executorError ∧
    run sampleReg sampleRun sampleDispatch [⟨3, "nope", none⟩] ≠
      .error .configurationError := by
  refine ⟨rfl, fun h => ?_⟩
  exact ExcKind.noConfusion (Except.error.inj h)

/-- C6 (amended): if any builder's target executor name does not resolve to
a registered backend, `run` raises `ExecutorError` (rather than the
`ConfigurationError` the claim states) immediately: the resolution loop runs
before the worker pool is created, so the whole run is aborted and no
builder is submitted to the pool. -/
theorem claim_C6 (reg : Registry) (eR : Builder → Builder)
    (eD : Builder → Option Builder) (bs : List Builder) (b : Builder)
    (hb : b ∈ bs) (h : getExec reg b.executor = none) :
    run reg eR eD bs = .error .executorError := by
  unfold run
  rw [resolveAll_error_of_mem hb h]

theorem claim_C6_witness :
    run sampleReg sampleRun sampleDispatch
      [⟨4, "unknown-executor", none⟩, sampleBatch] = .error .executorError :=
  claim_C6 sampleReg sampleRun sampleDispatch
    [⟨4, "unknown-executor", none⟩, sampleBatch] ⟨4, "unknown-executor", none⟩
    (by decide) rfl

/-- C8: for every registered backend, `setup` writes a script at the path
keyed by that backend's name whose content is exactly the shebang line, the
module-loading commands derived from the backend's settings (when any), and
the raw before-script text (empty when absent); it creates the per-backend
directory; and re-running `setup` changes nothing (idempotence). -/
theorem claim_C8 (gmc : Option String → List String) (root : String)
    (reg : Registry) (fs : FS) (n : String) (e : Executor)
    (hmem : (n, e) ∈ reg) (hnd : (reg.map Prod.fst).Nodup) :
    (setup gmc root reg fs).files (scriptPath root n) =
      some (scriptContent gmc e.settings) ∧
    (setup gmc root reg fs).dirs (dirPath root n) = true ∧
    setup gmc root reg (setup gmc root reg fs) = setup gmc root reg fs :=
  ⟨setup_files_mem hmem hnd, setup_dirs_mem hmem, setup_idem gmc root reg fs⟩

theorem claim_C8_witness :
    (setup (fun _ => []) "var/executors" sampleReg emptyFS).files
        (scriptPath "var/executors" "gen") =
      some (scriptContent (fun _ => []) ⟨none, none⟩) ∧
    (setup (fun _ => []) "var/executors" sampleReg emptyFS).dirs
        (dirPath "var/executors" "gen") = true ∧
    setup (fun _ => []) "var/executors" sampleReg
        (setup (fun _ => []) "var/executors" sampleReg emptyFS) =
      setup (fun _ => []) "var/executors" sampleReg emptyFS :=
  claim_C8 (fun _ => []) "var/executors" sampleReg emptyFS "gen"
    ⟨"local", ⟨none, none⟩⟩ (by decide) (by decide)

/-- C9: the orchestrator's poll interval is 30 seconds when neither the
`pollinterval` constructor argument nor the configuration default provides
one; a (positive) constructor argument takes priority over any configuration
value; and a (positive) configuration value is used when no argument is
given. -/
theorem claim_C9 (cfg : Option Nat) (p c : Nat) (hp : 0 < p) (hc : 0 < c) :
    pollintervalOf none none = 30 ∧
    pollintervalOf (some p) cfg = p ∧
    pollintervalOf none (some c) = c := by
  have hp0 : p ≠ 0 := by omega
  have hc0 : c ≠ 0 := by omega
  refine ⟨rfl, ?_, ?_⟩
  · simp [pollintervalOf, pyOrNat, hp0]
  · simp [pollintervalOf, pyOrNat, hc0]

theorem claim_C9_witness :
    pollintervalOf none none = 30 ∧
    pollintervalOf (some 10) (some 99) = 10 ∧
    pollintervalOf none (some 7) = 7 :=
  claim_C9 (some 99) 10 7 (by decide) (by decide)

/-- C10: for every name not registered in the executor registry, the public
accessor `get` returns `None` rather than raising an exception; only
`_choose_executor` turns the unknown name into the fatal `ExecutorError`. -/
theorem claim_C10 (reg : Registry) (b : Builder)
    (h : b.executor ∉ reg.map Prod.fst) :
    getExec reg b.executor = none ∧
    chooseExecutor reg b = .error .executorError := by
  have hg := getExec_eq_none h
  refine ⟨hg, ?_⟩
  unfold chooseExecutor
  rw [hg]

theorem claim_C10_witness :
    getExec sampleReg "nope" = none ∧
    chooseExecutor sampleReg ⟨3, "nope", none⟩ = .error .executorError :=
  claim_C10 sampleReg ⟨3, "nope", none⟩ (by decide)

end Buildtest
